import Mathlib

/-
Shallow embedding of the micrograd scalar autograd engine
(src/micrograd/engine.py, class Value).

Modelling choices, all taken from the source:
 - Python floats are modelled as exact rationals; every input appearing in
   the claims is a small integer or integer ratio, on which IEEE doubles
   compute exactly, so the rational model agrees with the host arithmetic.
 - Python objects are modelled by an append-only arena (a list of nodes);
   a node is identified by its index, which models Python object identity
   (Value defines no custom equality or hash, so set membership in the
   source is object identity).
 - The per-node closure `_backward` is modelled by a tag (`Op`) plus the
   ordered operand list it captures (`args`); the attribute `_prev`, which
   the source builds as `set(_children)`, is modelled as `args.dedup`
   (sets deduplicate; the source iteration order over a Python set is
   unspecified, the model fixes it to first-occurrence order).
 - Exponents are modelled as integers: the engine asserts the exponent is
   an int or float constant, and every exponent in the specification and
   the tests is an integer.
-/

namespace Micrograd

inductive Op where
  | leaf
  | add
  | mul
  | pow (n : ℤ)
  | relu
deriving DecidableEq

structure Node where
  data : ℚ
  grad : ℚ
  op : Op
  args : List Nat
deriving DecidableEq

instance : Inhabited Node := ⟨⟨0, 0, Op.leaf, []⟩⟩

abbrev Graph := List Node

/-- Field access through the arena: `data` of node `i` (0 for a dangling index). -/
def dataOf (g : Graph) (i : Nat) : ℚ := (g.getD i default).data

/-- Field access through the arena: `grad` of node `i`. -/
def gradOf (g : Graph) (i : Nat) : ℚ := (g.getD i default).grad

/-- The ordered operand list captured by the node's backward closure. -/
def argsOf (g : Graph) (i : Nat) : List Nat := (g.getD i default).args

/-- The opcode of node `i`. -/
def opOf (g : Graph) (i : Nat) : Op := (g.getD i default).op

/-- The `_prev` attribute: the source stores `set(_children)`, so duplicate
operands collapse; modelled as `dedup` of the ordered operand list. -/
def prevOf (g : Graph) (i : Nat) : List Nat := (argsOf g i).dedup

/-- `Value.__init__`: `data` as given, `grad = 0`, operation tag and the
captured children. New nodes are only ever appended to the arena. -/
def mkNode (data : ℚ) (op : Op) (args : List Nat) : Node :=
  ⟨data, 0, op, args⟩

/-- `Value(x)` with no children: a leaf node. -/
def leaf (g : Graph) (x : ℚ) : Graph × Nat :=
  (g ++ [mkNode x Op.leaf []], g.length)

/-- `Value.__add__` on two existing nodes: `Value(self.data + other.data, (self, other), '+')`. -/
def add (g : Graph) (a b : Nat) : Graph × Nat :=
  (g ++ [mkNode (dataOf g a + dataOf g b) Op.add [a, b]], g.length)

/-- `Value.__mul__` on two existing nodes: `Value(self.data * other.data, (self, other), '*')`. -/
def mul (g : Graph) (a b : Nat) : Graph × Nat :=
  (g ++ [mkNode (dataOf g a * dataOf g b) Op.mul [a, b]], g.length)

/-- `Value.__pow__` after its assert has passed:
`Value(self.data**other, (self,), ...)`. -/
def pow (g : Graph) (a : Nat) (n : ℤ) : Graph × Nat :=
  (g ++ [mkNode (dataOf g a ^ n) (Op.pow n) [a]], g.length)

/-- `Value.relu`: `Value(0 if self.data < 0 else self.data, (self,), 'ReLU')`. -/
def relu (g : Graph) (a : Nat) : Graph × Nat :=
  (g ++ [mkNode (if dataOf g a < 0 then 0 else dataOf g a) Op.relu [a]], g.length)

/-- The argument of `Value.__pow__` before the assert: either a numeric
constant or another node. -/
inductive PowArg where
  | num (n : ℤ)
  | node (i : Nat)

/-- `Value.__pow__` including its guard:
`assert isinstance(other, (int, float))` fires before any node is
constructed, so a failing call returns only the error and no graph. -/
def powChecked (g : Graph) (a : Nat) (e : PowArg) : Except String (Graph × Nat) :=
  match e with
  | PowArg.num n => Except.ok (pow g a n)
  | PowArg.node _ => Except.error "only supporting int/float powers for now"

/-- `self.grad += x` on node `i` of the arena (no-op on a dangling index,
which never occurs in graphs built by the constructors). -/
def addGrad : Graph → Nat → ℚ → Graph
  | [], _, _ => []
  | n :: t, 0, x => { n with grad := n.grad + x } :: t
  | n :: t, i + 1, x => n :: addGrad t i x

/-- `self.grad = x` on node `i` of the arena: an overwrite-assignment. -/
def setGrad : Graph → Nat → ℚ → Graph
  | [], _, _ => []
  | n :: t, 0, x => { n with grad := x } :: t
  | n :: t, i + 1, x => n :: setGrad t i x

/-- One call of a node's `_backward` closure, dispatched on its opcode.
Each arm is the source's closure body, reading the current arena at each
read and accumulating into each operand's `grad` in the source's order. -/
def backStep (g : Graph) (v : Nat) : Graph :=
  match opOf g v, argsOf g v with
  | Op.add, [a, b] =>
      let g1 := addGrad g a (gradOf g v)
      addGrad g1 b (gradOf g1 v)
  | Op.mul, [a, b] =>
      let g1 := addGrad g a (dataOf g b * gradOf g v)
      addGrad g1 b (dataOf g1 a * gradOf g1 v)
  | Op.pow n, [a] =>
      addGrad g a ((n * dataOf g a ^ (n - 1)) * gradOf g v)
  | Op.relu, [a] =>
      addGrad g a ((if 0 < dataOf g v then (1 : ℚ) else 0) * gradOf g v)
  | _, _ => g

/-- `build_topo` of `Value.backward`: depth-first traversal with a visited
set, appending a node after all of its children.  State is
(visited, topo).  The fuel argument only serves termination: operand
indices are strictly below the node's own index in every graph the
constructors can build, so fuel equal to the visited node's index is
always enough, and with that much fuel the function is exactly the
source's recursion (the zero-fuel arm can then only be reached at node 0,
whose child list is empty). -/
def buildTopo (g : Graph) : Nat → Nat → List Nat × List Nat → List Nat × List Nat
  | 0, v, st =>
      if v ∈ st.1 then st else (v :: st.1, st.2 ++ [v])
  | fuel + 1, v, st =>
      if v ∈ st.1 then st
      else
        let st1 := (prevOf g v).foldl (fun s c => buildTopo g fuel c s) (v :: st.1, st.2)
        (st1.1, st1.2 ++ [v])

/-- The topological order computed by `Value.backward` for a root. -/
def topoOf (g : Graph) (root : Nat) : List Nat :=
  (buildTopo g root root ([], [])).2

/-- `Value.backward`: build the topological order, seed `self.grad = 1`
(an assignment in the source), then run every `_backward` in reverse
topological order. -/
def backward (g : Graph) (root : Nat) : Graph :=
  let topo := topoOf g root
  let g1 := setGrad g root 1
  topo.reverse.foldl backStep g1

/-- `Value.__neg__`: `self * -1`; the -1 is a plain number, so `__mul__`
wraps it as a fresh leaf. -/
def neg (g : Graph) (a : Nat) : Graph × Nat :=
  let p := leaf g (-1)
  mul p.1 a p.2

/-- `Value.__sub__` on two nodes: `self + (-other)`. -/
def sub (g : Graph) (a b : Nat) : Graph × Nat :=
  let p := neg g b
  add p.1 a p.2

/-- `Value.__truediv__` on two nodes: `self * other**-1`. -/
def div (g : Graph) (a b : Nat) : Graph × Nat :=
  let p := pow g b (-1)
  mul p.1 a p.2

/-- `Value.__add__` when `other` is a plain number: the number is wrapped
as `Value(other)` and then added. -/
def addNum (g : Graph) (a : Nat) (c : ℚ) : Graph × Nat :=
  let p := leaf g c
  add p.1 a p.2

/-- `Value.__radd__`: `other + self` delegates to `self + other`. -/
def numAdd (g : Graph) (c : ℚ) (a : Nat) : Graph × Nat :=
  addNum g a c

/-- `Value.__mul__` when `other` is a plain number. -/
def mulNum (g : Graph) (a : Nat) (c : ℚ) : Graph × Nat :=
  let p := leaf g c
  mul p.1 a p.2

/-- `Value.__rmul__`: `other * self` delegates to `self * other`. -/
def numMul (g : Graph) (c : ℚ) (a : Nat) : Graph × Nat :=
  mulNum g a c

/-- `Value.__sub__` when `other` is a plain number: `self + (-other)`
negates the number itself before the wrap, so the wrapped leaf holds `-c`. -/
def subNum (g : Graph) (a : Nat) (c : ℚ) : Graph × Nat :=
  addNum g a (-c)

/-- `Value.__rsub__`: `other + (-self)`, i.e. negate the node, then add
the wrapped number. -/
def numSub (g : Graph) (c : ℚ) (a : Nat) : Graph × Nat :=
  let p := neg g a
  addNum p.1 p.2 c

/-- `Value.__truediv__` when `other` is a plain number:
`self * other**-1` computes the reciprocal on the number itself, so the
wrapped leaf holds `1 / c`. -/
def divNum (g : Graph) (a : Nat) (c : ℚ) : Graph × Nat :=
  mulNum g a c⁻¹

/-- `Value.__rtruediv__`: `other * self**-1`, i.e. a pow node on the
operand, then multiply by the wrapped number. -/
def numDiv (g : Graph) (c : ℚ) (a : Nat) : Graph × Nat :=
  let p := pow g a (-1)
  mulNum p.1 p.2 c

/- Concrete graphs used by the explicit test claims. -/

/-- The graph of the accumulation law: `x = Value(3.0); y = x + x`. -/
def graphC2 : Graph × Nat :=
  let x := leaf [] 3
  add x.1 x.2 x.2

/-- The graph of the power rule: `x = Value(2.0); y = x**3`. -/
def graphC7 : Graph × Nat :=
  let x := leaf [] 2
  pow x.1 x.2 3

/-- Relu boundary, negative side: `x = Value(-5.0); y = x.relu()`. -/
def graphC8neg : Graph × Nat :=
  let x := leaf [] (-5)
  relu x.1 x.2

/-- Relu boundary, positive side: `x = Value(5.0); y = x.relu()`. -/
def graphC8pos : Graph × Nat :=
  let x := leaf [] 5
  relu x.1 x.2

/-- The end-to-end sanity graph of `test_sanity_check`, built in the
source's evaluation order:
`x = Value(-4.0); z = 2*x + 2 + x; q = z.relu() + z*x;
h = (z*z).relu(); y = h + q + q*x`.  The second component is `y`. -/
def graphC1 : Graph × Nat :=
  let x := leaf [] (-4)
  let t1 := numMul x.1 2 x.2
  let t2 := addNum t1.1 t1.2 2
  let z := add t2.1 t2.2 x.2
  let r := relu z.1 z.2
  let zx := mul r.1 z.2 x.2
  let q := add zx.1 r.2 zx.2
  let zz := mul q.1 z.2 z.2
  let h := relu zz.1 zz.2
  let hq := add h.1 h.2 q.2
  let qx := mul hq.1 q.2 x.2
  add qx.1 hq.2 qx.2

/- Well-formedness: every operand index is strictly below the node's own
index.  This is forced by construction in the source (a node only ever
stores references to objects that already exist) and is what makes the
graph a DAG. -/

/-- Executable well-formedness check of an arena. -/
def WfB (g : Graph) : Bool :=
  (List.range g.length).all fun i => (argsOf g i).all fun j => decide (j < i)

/-- A well-formed arena: operands strictly precede their consumer. -/
abbrev Wf (g : Graph) : Prop := WfB g = true

theorem argsOf_of_le (g : Graph) (v : Nat) (h : g.length ≤ v) : argsOf g v = [] := by
  unfold argsOf
  rw [List.getD_eq_default _ _ h]
  rfl

theorem wf_args_lt {g : Graph} (hwf : Wf g) {v c : Nat} (hc : c ∈ argsOf g v) : c < v := by
  by_cases hv : v < g.length
  · have h := hwf
    unfold Wf WfB at h
    rw [List.all_eq_true] at h
    have h2 := h v (List.mem_range.mpr hv)
    rw [List.all_eq_true] at h2
    simpa using h2 c hc
  · rw [argsOf_of_le g v (le_of_not_lt hv)] at hc
    cases hc

theorem wf_prev_lt {g : Graph} (hwf : Wf g) {v c : Nat} (hc : c ∈ prevOf g v) : c < v :=
  wf_args_lt hwf (List.mem_dedup.mp hc)

theorem prevOf_zero {g : Graph} (hwf : Wf g) : prevOf g 0 = [] := by
  rw [List.eq_nil_iff_forall_not_mem]
  intro c hc
  exact Nat.not_lt_zero c (wf_prev_lt hwf hc)

/- Helper lemmas about field access through appends (every constructor
returns `(g ++ [node], g.length)`). -/

theorem getD_concat (g : Graph) (n : Node) : (g ++ [n]).getD g.length default = n := by
  induction g with
  | nil => rfl
  | cons h t ih => simp [ih]

theorem dataOf_concat (g : Graph) (n : Node) : dataOf (g ++ [n]) g.length = n.data := by
  unfold dataOf
  rw [getD_concat]

theorem argsOf_concat (g : Graph) (n : Node) : argsOf (g ++ [n]) g.length = n.args := by
  unfold argsOf
  rw [getD_concat]

theorem opOf_concat (g : Graph) (n : Node) : opOf (g ++ [n]) g.length = n.op := by
  unfold opOf
  rw [getD_concat]

theorem getD_append_lt (g : Graph) (t : Graph) (i : Nat) (h : i < g.length) :
    (g ++ t).getD i default = g.getD i default := by
  unfold List.getD
  rw [List.get?_append h]

theorem dataOf_append_lt (g : Graph) (t : Graph) (i : Nat) (h : i < g.length) :
    dataOf (g ++ t) i = dataOf g i := by
  unfold dataOf
  rw [getD_append_lt g t i h]

/-- The value stored by each constructor, read off the returned index. -/
theorem dataOf_leaf (g : Graph) (x : ℚ) : dataOf (leaf g x).1 (leaf g x).2 = x :=
  dataOf_concat g _

theorem dataOf_add (g : Graph) (a b : Nat) :
    dataOf (add g a b).1 (add g a b).2 = dataOf g a + dataOf g b :=
  dataOf_concat g _

theorem dataOf_mul (g : Graph) (a b : Nat) :
    dataOf (mul g a b).1 (mul g a b).2 = dataOf g a * dataOf g b :=
  dataOf_concat g _

theorem dataOf_pow (g : Graph) (a : Nat) (n : ℤ) :
    dataOf (pow g a n).1 (pow g a n).2 = dataOf g a ^ n :=
  dataOf_concat g _

theorem argsOf_append_lt (g : Graph) (t : Graph) (i : Nat) (h : i < g.length) :
    argsOf (g ++ t) i = argsOf g i := by
  unfold argsOf
  unfold List.getD
  rw [List.get?_append h]

theorem wf_iff (g : Graph) : Wf g ↔ ∀ i, i < g.length → ∀ j ∈ argsOf g i, j < i := by
  unfold Wf WfB
  rw [List.all_eq_true]
  constructor
  · intro h i hi j hj
    have h2 := h i (List.mem_range.mpr hi)
    rw [List.all_eq_true] at h2
    simpa using h2 j hj
  · intro h i hi
    rw [List.all_eq_true]
    intro j hj
    simp only [decide_eq_true_eq]
    exact h i (List.mem_range.mp hi) j hj

/-- Appending a node whose operands already exist preserves
well-formedness: this is the source's acyclicity-by-construction
argument (a node can only reference objects created before it). -/
theorem wf_append (g : Graph) (n : Node) (hwf : Wf g)
    (hn : ∀ j ∈ n.args, j < g.length) : Wf (g ++ [n]) := by
  rw [wf_iff] at hwf ⊢
  intro i hi j hj
  by_cases h : i < g.length
  · rw [argsOf_append_lt g [n] i h] at hj
    exact hwf i h j hj
  · have hig : i = g.length := by
      rw [List.length_append, List.length_singleton] at hi
      omega
    subst hig
    rw [argsOf_concat] at hj
    exact hn j hj

theorem wf_leaf (g : Graph) (x : ℚ) (hwf : Wf g) : Wf (leaf g x).1 :=
  wf_append g _ hwf (by simp [mkNode])

theorem wf_add (g : Graph) (a b : Nat) (hwf : Wf g)
    (ha : a < g.length) (hb : b < g.length) : Wf (add g a b).1 :=
  wf_append g _ hwf (by simp [mkNode]; exact ⟨ha, hb⟩)

theorem wf_mul (g : Graph) (a b : Nat) (hwf : Wf g)
    (ha : a < g.length) (hb : b < g.length) : Wf (mul g a b).1 :=
  wf_append g _ hwf (by simp [mkNode]; exact ⟨ha, hb⟩)

theorem wf_pow (g : Graph) (a : Nat) (n : ℤ) (hwf : Wf g)
    (ha : a < g.length) : Wf (pow g a n).1 :=
  wf_append g _ hwf (by simp [mkNode]; exact ha)

theorem wf_relu (g : Graph) (a : Nat) (hwf : Wf g)
    (ha : a < g.length) : Wf (relu g a).1 :=
  wf_append g _ hwf (by simp [mkNode]; exact ha)

/-- Reachability along operand edges, as traversed by `build_topo`. -/
inductive Reach (g : Graph) : Nat → Nat → Prop
  | refl (v : Nat) : Reach g v v
  | head {v c x : Nat} : c ∈ prevOf g v → Reach g c x → Reach g v x

theorem reach_of_nil {g : Graph} {v x : Nat} (h : prevOf g v = []) (hr : Reach g v x) :
    x = v := by
  cases hr with
  | refl => rfl
  | head hc _ => rw [h] at hc; cases hc

/-- `c` occurs at a strictly smaller index than `x` in the list `l`. -/
def IdxLt (l : List Nat) (c x : Nat) : Prop :=
  ∃ i j, ∃ hi : i < l.length, ∃ hj : j < l.length,
    i < j ∧ l.get ⟨i, hi⟩ = c ∧ l.get ⟨j, hj⟩ = x

theorem IdxLt.append {l : List Nat} {c x : Nat} (t : List Nat) (h : IdxLt l c x) :
    IdxLt (l ++ t) c x := by
  obtain ⟨i, j, hi, hj, hij, hgc, hgx⟩ := h
  have hi' : i < (l ++ t).length := by
    rw [List.length_append]; exact Nat.lt_of_lt_of_le hi (Nat.le_add_right _ _)
  have hj' : j < (l ++ t).length := by
    rw [List.length_append]; exact Nat.lt_of_lt_of_le hj (Nat.le_add_right _ _)
  exact ⟨i, j, hi', hj', hij, by rw [List.get_append i hi] at *; exact hgc,
    by rw [List.get_append j hj] at *; exact hgx⟩

theorem idxLt_concat {l : List Nat} {c : Nat} (v : Nat) (hc : c ∈ l) :
    IdxLt (l ++ [v]) c v := by
  obtain ⟨⟨i, hi⟩, hgc⟩ := List.mem_iff_get.mp hc
  have hi' : i < (l ++ [v]).length := by
    rw [List.length_append]; exact Nat.lt_of_lt_of_le hi (Nat.le_add_right _ _)
  have hj' : l.length < (l ++ [v]).length := by
    rw [List.length_append]; exact Nat.lt_succ_self _
  refine ⟨i, l.length, hi', hj', hi, ?_, ?_⟩
  · rw [List.get_append i hi]; exact hgc
  · simp

theorem IdxLt.mem_left {l : List Nat} {c x : Nat} (h : IdxLt l c x) : c ∈ l := by
  obtain ⟨i, _, hi, _, _, hgc, _⟩ := h
  rw [← hgc]
  exact List.get_mem l i hi

/- DFS invariants of `build_topo`.  State is (visited, topo). -/

/-- Invariant of a traversal state: the emitted prefix is duplicate-free,
is contained in the visited set, and already lists every operand of an
emitted node before that node. -/
def Inv (g : Graph) (st : List Nat × List Nat) : Prop :=
  st.2.Nodup ∧ (∀ x ∈ st.2, x ∈ st.1) ∧ ∀ x ∈ st.2, ∀ c ∈ prevOf g x, IdxLt st.2 c x

theorem inv_closed {g : Graph} {st : List Nat × List Nat} (hinv : Inv g st)
    {y c : Nat} (hy : y ∈ st.2) (hc : c ∈ prevOf g y) : c ∈ st.2 :=
  (hinv.2.2 y hy c hc).mem_left

theorem reach_mem_topo {g : Graph} {st : List Nat × List Nat} (hinv : Inv g st)
    {v x : Nat} (hv : v ∈ st.2) (hr : Reach g v x) : x ∈ st.2 := by
  induction hr with
  | refl => exact hv
  | head hc _ ih => exact ih (inv_closed hinv hv hc)

/-- What one visit guarantees: the topo list only grows at its end, the
visited set only grows, every newly visited node is reachable from the
visited node, every newly emitted node was previously unvisited, no new
half-finished (visited but unemitted) node appears, everything reachable
from the visited node ends up emitted, and the invariant is preserved. -/
def Post (g : Graph) (v : Nat) (st st' : List Nat × List Nat) : Prop :=
  (∃ t, st'.2 = st.2 ++ t) ∧
  (∀ x, x ∈ st.1 → x ∈ st'.1) ∧
  (∀ x, x ∈ st'.1 → x ∈ st.1 ∨ Reach g v x) ∧
  (∀ x, x ∈ st'.2 → x ∈ st.2 ∨ x ∉ st.1) ∧
  (∀ x, x ∈ st'.1 → x ∉ st'.2 → x ∈ st.1 ∧ x ∉ st.2) ∧
  (∀ x, Reach g v x → x ∈ st'.2) ∧
  Inv g st'

/-- The analogue of `Post` for the fold over a child list. -/
def FoldPost (g : Graph) (cs : List Nat) (st st' : List Nat × List Nat) : Prop :=
  (∃ t, st'.2 = st.2 ++ t) ∧
  (∀ x, x ∈ st.1 → x ∈ st'.1) ∧
  (∀ x, x ∈ st'.1 → x ∈ st.1 ∨ ∃ c ∈ cs, Reach g c x) ∧
  (∀ x, x ∈ st'.2 → x ∈ st.2 ∨ x ∉ st.1) ∧
  (∀ x, x ∈ st'.1 → x ∉ st'.2 → x ∈ st.1 ∧ x ∉ st.2) ∧
  (∀ c ∈ cs, ∀ x, Reach g c x → x ∈ st'.2) ∧
  Inv g st'

theorem post_of_visited {g : Graph} {v : Nat} {st : List Nat × List Nat}
    (hinv : Inv g st) (hgray : ∀ x ∈ st.1, x ∉ st.2 → v < x) (hv : v ∈ st.1) :
    Post g v st st := by
  have hvt : v ∈ st.2 := by
    by_contra hnv
    exact Nat.lt_irrefl v (hgray v hv hnv)
  exact ⟨⟨[], by simp⟩, fun x h => h, fun x h => Or.inl h, fun x h => Or.inl h,
    fun x h1 h2 => ⟨h1, h2⟩, fun x hr => reach_mem_topo hinv hvt hr, hinv⟩

theorem foldTopo_post (g : Graph) (fuel : Nat)
    (IH : ∀ v st, v ≤ fuel → Inv g st → (∀ x ∈ st.1, x ∉ st.2 → v < x) →
      Post g v st (buildTopo g fuel v st)) :
    ∀ cs st, (∀ c ∈ cs, c ≤ fuel) → Inv g st →
      (∀ x ∈ st.1, x ∉ st.2 → ∀ c ∈ cs, c < x) →
      FoldPost g cs st (cs.foldl (fun s c => buildTopo g fuel c s) st) := by
  intro cs
  induction cs with
  | nil =>
    intro st _ hinv _
    exact ⟨⟨[], by simp⟩, fun x h => h, fun x h => Or.inl h, fun x h => Or.inl h,
      fun x h1 h2 => ⟨h1, h2⟩, (by intro c hc; cases hc), hinv⟩
  | cons c cs ih =>
    intro st hle hinv hgray
    rw [List.foldl_cons]
    obtain ⟨⟨t1, ht1⟩, hmono1, hnew1, hfresh1, hgray1, hcomp1, hinv1⟩ :=
      IH c st (hle c (List.mem_cons_self c cs)) hinv
        (fun x hx hnx => hgray x hx hnx c (List.mem_cons_self c cs))
    obtain ⟨⟨t2, ht2⟩, hmono2, hnew2, hfresh2, hgray2, hcomp2, hinv2⟩ :=
      ih (buildTopo g fuel c st)
        (fun c' hc' => hle c' (List.mem_cons_of_mem c hc'))
        hinv1
        (by
          intro x hx hnx c' hc'
          have h2 := hgray1 x hx hnx
          exact hgray x h2.1 h2.2 c' (List.mem_cons_of_mem c hc'))
    refine ⟨⟨t1 ++ t2, by rw [ht2, ht1, List.append_assoc]⟩,
      fun x hx => hmono2 x (hmono1 x hx), ?_, ?_, ?_, ?_, hinv2⟩
    · intro x hx
      rcases hnew2 x hx with h2 | ⟨c', hc', hr⟩
      · rcases hnew1 x h2 with h1 | hr
        · exact Or.inl h1
        · exact Or.inr ⟨c, List.mem_cons_self c cs, hr⟩
      · exact Or.inr ⟨c', List.mem_cons_of_mem c hc', hr⟩
    · intro x hx
      rcases hfresh2 x hx with h2 | hnv1
      · rcases hfresh1 x h2 with h1 | hnv
        · exact Or.inl h1
        · exact Or.inr hnv
      · exact Or.inr (fun hx0 => hnv1 (hmono1 x hx0))
    · intro x hx hnx
      have h2 := hgray2 x hx hnx
      exact hgray1 x h2.1 h2.2
    · intro c' hc' x hr
      rcases List.mem_cons.mp hc' with hceq | hcm
      · subst hceq
        rw [ht2]
        exact List.mem_append_left t2 (hcomp1 x hr)
      · exact hcomp2 c' hcm x hr

theorem buildTopo_post (g : Graph) (hwf : Wf g) :
    ∀ fuel v st, v ≤ fuel → Inv g st → (∀ x ∈ st.1, x ∉ st.2 → v < x) →
      Post g v st (buildTopo g fuel v st) := by
  intro fuel
  induction fuel with
  | zero =>
    intro v st hv hinv hgray
    have hv0 : v = 0 := Nat.le_zero.mp hv
    subst hv0
    by_cases hmem : (0 : Nat) ∈ st.1
    · have heq : buildTopo g 0 0 st = st := by
        simp only [buildTopo]
        rw [if_pos hmem]
      rw [heq]
      exact post_of_visited hinv hgray hmem
    · have heq : buildTopo g 0 0 st = (0 :: st.1, st.2 ++ [0]) := by
        simp only [buildTopo]
        rw [if_neg hmem]
      rw [heq]
      have hprev : prevOf g 0 = [] := prevOf_zero hwf
      have h0nt : (0 : Nat) ∉ st.2 := fun h => hmem (hinv.2.1 0 h)
      refine ⟨⟨[0], rfl⟩, fun x hx => List.mem_cons_of_mem 0 hx, ?_, ?_, ?_, ?_, ?_, ?_, ?_⟩
      · intro x hx
        rcases List.mem_cons.mp hx with h0 | h1
        · subst h0; exact Or.inr (Reach.refl 0)
        · exact Or.inl h1
      · intro x hx
        rcases List.mem_append.mp hx with h | h
        · exact Or.inl h
        · rw [List.mem_singleton] at h; subst h; exact Or.inr hmem
      · intro x hx hnx
        have hx0 : x ≠ 0 := fun h => by
          subst h
          exact hnx (List.mem_append_right _ (List.mem_singleton_self 0))
        constructor
        · rcases List.mem_cons.mp hx with h | h
          · exact absurd h hx0
          · exact h
        · exact fun h => hnx (List.mem_append_left _ h)
      · intro x hr
        have hx0 := reach_of_nil hprev hr
        subst hx0
        exact List.mem_append_right _ (List.mem_singleton_self 0)
      · rw [List.nodup_append]
        refine ⟨hinv.1, List.nodup_singleton 0, ?_⟩
        intro a ha hb
        rw [List.mem_singleton] at hb
        subst hb
        exact h0nt ha
      · intro x hx
        rcases List.mem_append.mp hx with h | h
        · exact List.mem_cons_of_mem 0 (hinv.2.1 x h)
        · rw [List.mem_singleton] at h; subst h; exact List.mem_cons_self 0 st.1
      · intro x hx c hc
        rcases List.mem_append.mp hx with h | h
        · exact (hinv.2.2 x h c hc).append [0]
        · rw [List.mem_singleton] at h; subst h; rw [hprev] at hc; cases hc
  | succ fuel ihf =>
    intro v st hv hinv hgray
    by_cases hmem : v ∈ st.1
    · have heq : buildTopo g (fuel + 1) v st = st := by
        simp only [buildTopo]
        rw [if_pos hmem]
      rw [heq]
      exact post_of_visited hinv hgray hmem
    · have heq : buildTopo g (fuel + 1) v st =
          (((prevOf g v).foldl (fun s c => buildTopo g fuel c s) (v :: st.1, st.2)).1,
           ((prevOf g v).foldl (fun s c => buildTopo g fuel c s) (v :: st.1, st.2)).2 ++ [v]) := by
        simp only [buildTopo]
        rw [if_neg hmem]
      rw [heq]
      have hinv1 : Inv g (v :: st.1, st.2) :=
        ⟨hinv.1, fun x h => List.mem_cons_of_mem v (hinv.2.1 x h), hinv.2.2⟩
      have hlec : ∀ c ∈ prevOf g v, c ≤ fuel := fun c hc =>
        Nat.lt_succ_iff.mp (Nat.lt_of_lt_of_le (wf_prev_lt hwf hc) hv)
      have hgray1 : ∀ x ∈ (v :: st.1, st.2).1, x ∉ (v :: st.1, st.2).2 →
          ∀ c ∈ prevOf g v, c < x := by
        intro x hx hnx c hc
        rcases List.mem_cons.mp hx with hxv | hxm
        · subst hxv; exact wf_prev_lt hwf hc
        · exact Nat.lt_trans (wf_prev_lt hwf hc) (hgray x hxm hnx)
      obtain ⟨⟨t, ht⟩, hmono, hnew, hfresh, hgrayp, hcomp, hinvf⟩ :=
        foldTopo_post g fuel ihf (prevOf g v) (v :: st.1, st.2) hlec hinv1 hgray1
      have hvnott : v ∉ ((prevOf g v).foldl (fun s c => buildTopo g fuel c s) (v :: st.1, st.2)).2 := by
        intro hvt
        rcases hfresh v hvt with h | h
        · exact hmem (hinv.2.1 v h)
        · exact h (List.mem_cons_self v st.1)
      refine ⟨⟨t ++ [v], by rw [ht]; simp [List.append_assoc]⟩,
        fun x hx => hmono x (List.mem_cons_of_mem v hx), ?_, ?_, ?_, ?_, ?_, ?_, ?_⟩
      · intro x hx
        rcases hnew x hx with h1 | ⟨c, hc, hr⟩
        · rcases List.mem_cons.mp h1 with hxv | hxm
          · subst hxv; exact Or.inr (Reach.refl x)
          · exact Or.inl hxm
        · exact Or.inr (Reach.head hc hr)
      · intro x hx
        rcases List.mem_append.mp hx with h | h
        · rcases hfresh x h with h1 | h1
          · exact Or.inl h1
          · exact Or.inr fun hv2 => h1 (List.mem_cons_of_mem v hv2)
        · rw [List.mem_singleton] at h; subst h; exact Or.inr hmem
      · intro x hx hnx
        have hxv : x ≠ v := fun h => by
          subst h
          exact hnx (List.mem_append_right _ (List.mem_singleton_self x))
        have h2 := hgrayp x hx (fun h => hnx (List.mem_append_left _ h))
        refine ⟨?_, h2.2⟩
        rcases List.mem_cons.mp h2.1 with h | h
        · exact absurd h hxv
        · exact h
      · intro x hr
        cases hr with
        | refl => exact List.mem_append_right _ (List.mem_singleton_self v)
        | head hc hr2 => exact List.mem_append_left _ (hcomp _ hc _ hr2)
      · rw [List.nodup_append]
        refine ⟨hinvf.1, List.nodup_singleton v, ?_⟩
        intro a ha hb
        rw [List.mem_singleton] at hb
        subst hb
        exact hvnott ha
      · intro x hx
        rcases List.mem_append.mp hx with h | h
        · exact hinvf.2.1 x h
        · rw [List.mem_singleton] at h; subst h
          exact hmono x (List.mem_cons_self x st.1)
      · intro x hx c hc
        rcases List.mem_append.mp hx with h | h
        · exact (hinvf.2.2 x h c hc).append [v]
        · rw [List.mem_singleton] at h; subst h
          exact idxLt_concat x (hcomp c hc c (Reach.refl c))

/- Spec-side definitions, used for refinement comparisons. -/

/-- The spec's composition for negation: `mul(a, leaf(-1))`. -/
def specNeg (g : Graph) (a : Nat) : Graph × Nat :=
  let p := leaf g (-1)
  mul p.1 a p.2

/-- The spec's composition for subtraction: `add(a, negate(b))`. -/
def specSub (g : Graph) (a b : Nat) : Graph × Nat :=
  let p := specNeg g b
  add p.1 a p.2

/-- The spec's composition for division: `mul(a, pow(b, -1))`. -/
def specDiv (g : Graph) (a b : Nat) : Graph × Nat :=
  let p := pow g b (-1)
  mul p.1 a p.2

/-- The write discipline the spec claims for `backward`: `grad` is only
ever written by accumulation, never assigned, so the root seed reads
`grad += 1`.  This is the claim side of the comparison; `backward` (whose
seed is the source's assignment `self.grad = 1`) is the code side. -/
def backwardAccumSpec (g : Graph) (root : Nat) : Graph :=
  let topo := topoOf g root
  let g1 := addGrad g root 1
  topo.reverse.foldl backStep g1

/-- Everything of a node except its gradient accumulator. -/
def stripGrad (n : Node) : ℚ × Op × List Nat :=
  (n.data, n.op, n.args)

theorem addGrad_stripGrad (g : Graph) (i : Nat) (x : ℚ) :
    (addGrad g i x).map stripGrad = g.map stripGrad := by
  induction g generalizing i with
  | nil => rfl
  | cons n t ih =>
    cases i with
    | zero => simp [addGrad, stripGrad]
    | succ j => simp [addGrad, ih]

theorem setGrad_stripGrad (g : Graph) (i : Nat) (x : ℚ) :
    (setGrad g i x).map stripGrad = g.map stripGrad := by
  induction g generalizing i with
  | nil => rfl
  | cons n t ih =>
    cases i with
    | zero => simp [setGrad, stripGrad]
    | succ j => simp [setGrad, ih]

theorem backStep_stripGrad (g : Graph) (v : Nat) :
    (backStep g v).map stripGrad = g.map stripGrad := by
  unfold backStep
  split <;> simp [addGrad_stripGrad]

theorem foldl_backStep_stripGrad (l : List Nat) (g : Graph) :
    (l.foldl backStep g).map stripGrad = g.map stripGrad := by
  induction l generalizing g with
  | nil => rfl
  | cons v t ih => rw [List.foldl_cons, ih, backStep_stripGrad]

theorem backward_stripGrad (g : Graph) (root : Nat) :
    (backward g root).map stripGrad = g.map stripGrad := by
  unfold backward
  rw [foldl_backStep_stripGrad, setGrad_stripGrad]

/-- `x = Value(5.0)`: a one-leaf arena used by concrete counterexamples. -/
def graphX5 : Graph := (leaf [] 5).1

/- The claim theorems. -/

/-- C1: for the graph `x = leaf(-4.0)`; `z = add(add(mul(leaf(2.0), x), leaf(2.0)), x)`;
`q = add(relu(z), mul(z, x))`; `h = relu(mul(z, z))`;
`y = add(add(h, q), mul(q, x))`, after `backward(y)` the root's value
equals -20.0 and x's grad equals 46.0. -/
theorem c1_end_to_end :
    dataOf (backward graphC1.1 graphC1.2) graphC1.2 = -20 ∧
    gradOf (backward graphC1.1 graphC1.2) 0 = 46 := by
  with_unfolding_all decide

/-- C2: for `x = leaf(3.0)` and `y = add(x, x)`, after `backward(y)` the
field `x.grad` equals 2.0: the shared operand receives the sum of the
contributions of both of its uses. -/
theorem c2_accumulation : gradOf (backward graphC2.1 graphC2.2) 0 = 2 := by
  with_unfolding_all decide

/-- C7: for `x = leaf(2.0)` and `y = pow(x, 3)`, the value of `y` equals
8.0 and after `backward(y)` the field `x.grad` equals 12.0. -/
theorem c7_power_rule :
    dataOf graphC7.1 graphC7.2 = 8 ∧
    gradOf (backward graphC7.1 graphC7.2) 0 = 12 := by
  with_unfolding_all decide

/-- C8: for `x = leaf(-5.0)` and `y = relu(x)`, `y.value = 0.0` and after
`backward(y)` `x.grad = 0.0`; for `x = leaf(5.0)` and `y = relu(x)`,
`y.value = 5.0` and after `backward(y)` `x.grad = 1.0`. -/
theorem c8_relu_boundary :
    dataOf graphC8neg.1 graphC8neg.2 = 0 ∧
    gradOf (backward graphC8neg.1 graphC8neg.2) 0 = 0 ∧
    dataOf graphC8pos.1 graphC8pos.2 = 5 ∧
    gradOf (backward graphC8pos.1 graphC8pos.2) 0 = 1 := by
  with_unfolding_all decide

/-- C5: calling `pow` with an exponent that is another node fails with an
error at call time; the failing call returns only the error value, so no
node is constructed and the caller's arena is untouched, whereas a
numeric exponent always passes the guard. -/
theorem c5_pow_nonscalar_exponent :
    (∀ (g : Graph) (a i : Nat),
      powChecked g a (PowArg.node i) =
        Except.error "only supporting int/float powers for now") ∧
    ∀ (g : Graph) (a : Nat) (n : ℤ),
      powChecked g a (PowArg.num n) = Except.ok (pow g a n) :=
  ⟨fun _ _ _ => rfl, fun _ _ _ => rfl⟩

/-- C3: for every well-formed graph, the sequence produced by the
topological sort contains every node reachable from the root along
operand edges, exactly once (no duplicates), and for every
operand-to-consumer edge the operand's index in the sequence is strictly
below the consumer's index. -/
theorem c3_topological_sort (g : Graph) (hwf : Wf g) (root : Nat) :
    (∀ x, x ∈ topoOf g root ↔ Reach g root x) ∧
    (topoOf g root).Nodup ∧
    ∀ x ∈ topoOf g root, ∀ c ∈ argsOf g x, IdxLt (topoOf g root) c x := by
  have hinv0 : Inv g (([] : List Nat), ([] : List Nat)) :=
    ⟨List.nodup_nil, by simp, by simp⟩
  obtain ⟨⟨t, ht⟩, hmono, hnew, hfresh, hgray, hcomp, hinvf⟩ :=
    buildTopo_post g hwf root root ([], []) (Nat.le_refl root) hinv0 (by simp)
  unfold topoOf
  refine ⟨?_, hinvf.1, ?_⟩
  · intro x
    constructor
    · intro hx
      rcases hnew x (hinvf.2.1 x hx) with h | h
      · cases h
      · exact h
    · exact hcomp x
  · intro x hx c hc
    exact hinvf.2.2 x hx c (List.mem_dedup.mpr hc)

/-- Witness for C3 at the end-to-end sanity graph. -/
theorem c3_topological_sort_witness :
    Wf graphC1.1 ∧
    ((∀ x, x ∈ topoOf graphC1.1 graphC1.2 ↔ Reach graphC1.1 graphC1.2 x) ∧
     (topoOf graphC1.1 graphC1.2).Nodup ∧
     ∀ x ∈ topoOf graphC1.1 graphC1.2, ∀ c ∈ argsOf graphC1.1 x,
       IdxLt (topoOf graphC1.1 graphC1.2) c x) :=
  ⟨by with_unfolding_all decide,
   c3_topological_sort graphC1.1 (by with_unfolding_all decide) graphC1.2⟩

/-- C4 counterexample: the source's `backward` seeds the root gradient by
the assignment `self.grad = 1`, not by accumulation.  On `y = add(x, x)`
a second `backward(y)` call leaves `y.grad` at 1, while under the claimed
all-writes-are-additions discipline (`backwardAccumSpec`) it would be 2;
the two disciplines produce different arenas. -/
theorem c4_overwrite_counterexample :
    gradOf (backward (backward graphC2.1 graphC2.2) graphC2.2) graphC2.2 = 1 ∧
    gradOf (backwardAccumSpec (backwardAccumSpec graphC2.1 graphC2.2) graphC2.2) graphC2.2 = 2 ∧
    backward (backward graphC2.1 graphC2.2) graphC2.2 ≠
      backwardAccumSpec (backwardAccumSpec graphC2.1 graphC2.2) graphC2.2 := by
  with_unfolding_all decide

/-- C4 amended: `backward` never writes `value`, `opcode` or the operand
list of any node (the gradient is the only field it mutates), and the
operand writes are accumulative — a second `backward` pass doubles a
leaf's gradient (4 = 2 + 2) — but the root's gradient is seeded by an
overwrite-assignment to 1 at the start of each call, so it stays 1. -/
theorem c4_grad_write_discipline :
    (∀ (g : Graph) (root : Nat), (backward g root).map stripGrad = g.map stripGrad) ∧
    gradOf (backward (backward graphC2.1 graphC2.2) graphC2.2) 0 = 4 ∧
    gradOf (backward (backward graphC2.1 graphC2.2) graphC2.2) graphC2.2 = 1 := by
  refine ⟨backward_stripGrad, ?_⟩
  with_unfolding_all decide

/-- C6 counterexample: the source stores a node's operands as
`set(_children)`, which collapses a repeated operand: for
`y = add(x, x)` the stored predecessor collection holds one reference,
not an ordered sequence of length 2. -/
theorem c6_operand_set_counterexample :
    prevOf graphC2.1 graphC2.2 = [0] ∧
    (prevOf graphC2.1 graphC2.2).length ≠ 2 := by
  with_unfolding_all decide

theorem dedup_pair (a b : Nat) :
    ([a, b] : List Nat).dedup = if a = b then [b] else [a, b] := by
  by_cases h : a = b
  · subst h
    simp
  · simp [List.dedup_cons_of_not_mem, h]

/-- C6 amended: the ordered operand pair is retained by the node's
backward closure (`args`: 0 operands for Leaf, 1 for Pow and Relu, 2 for
Add and Mul even when both coincide), but the stored predecessor
collection `_prev` is a set of distinct references: it has 2 elements for
Add/Mul exactly when the operands differ and 1 when they coincide. -/
theorem c6_operand_storage (g : Graph) (a b : Nat) (x : ℚ) (n : ℤ) :
    argsOf (leaf g x).1 (leaf g x).2 = [] ∧
    prevOf (leaf g x).1 (leaf g x).2 = [] ∧
    argsOf (add g a b).1 (add g a b).2 = [a, b] ∧
    prevOf (add g a b).1 (add g a b).2 = (if a = b then [b] else [a, b]) ∧
    argsOf (mul g a b).1 (mul g a b).2 = [a, b] ∧
    prevOf (mul g a b).1 (mul g a b).2 = (if a = b then [b] else [a, b]) ∧
    argsOf (pow g a n).1 (pow g a n).2 = [a] ∧
    prevOf (pow g a n).1 (pow g a n).2 = [a] ∧
    argsOf (relu g a).1 (relu g a).2 = [a] ∧
    prevOf (relu g a).1 (relu g a).2 = [a] := by
  refine ⟨?_, ?_, ?_, ?_, ?_, ?_, ?_, ?_, ?_, ?_⟩ <;>
    simp [leaf, add, mul, pow, relu, prevOf, argsOf_concat, mkNode, dedup_pair]

/-- C9: the derived operations are exactly the spec's compositions of the
primitives — negation is `mul(a, leaf(-1))`, subtraction is
`add(a, negate(b))`, division is `mul(a, pow(b, -1))` — and the nodes
they append carry no opcode outside the primitive set. -/
theorem c9_derived_operations (g : Graph) (a b : Nat) :
    neg g a = specNeg g a ∧
    sub g a b = specSub g a b ∧
    div g a b = specDiv g a b ∧
    ((neg g a).1.drop g.length).map Node.op = [Op.leaf, Op.mul] ∧
    ((sub g a b).1.drop g.length).map Node.op = [Op.leaf, Op.mul, Op.add] ∧
    ((div g a b).1.drop g.length).map Node.op = [Op.pow (-1), Op.mul] := by
  refine ⟨rfl, rfl, rfl, ?_, ?_, ?_⟩ <;>
    simp [neg, sub, div, leaf, mul, add, pow, mkNode, List.append_assoc]

/- Value lemmas for the mixed node/number operations. -/

theorem leaf_snd_lt (g : Graph) (x : ℚ) : (leaf g x).2 < (leaf g x).1.length := by
  simp [leaf]

theorem neg_snd_lt (g : Graph) (a : Nat) : (neg g a).2 < (neg g a).1.length := by
  simp [neg, mul, leaf]

theorem pow_snd_lt (g : Graph) (a : Nat) (n : ℤ) :
    (pow g a n).2 < (pow g a n).1.length := by
  simp [pow]

theorem dataOf_leaf_lt (g : Graph) (x : ℚ) (i : Nat) (h : i < g.length) :
    dataOf (leaf g x).1 i = dataOf g i :=
  dataOf_append_lt g _ i h

theorem addNum_value (g : Graph) (a : Nat) (c : ℚ) (ha : a < g.length) :
    dataOf (addNum g a c).1 (addNum g a c).2 = dataOf g a + c := by
  unfold addNum
  rw [dataOf_add, dataOf_leaf_lt g c a ha, dataOf_leaf]

theorem mulNum_value (g : Graph) (a : Nat) (c : ℚ) (ha : a < g.length) :
    dataOf (mulNum g a c).1 (mulNum g a c).2 = dataOf g a * c := by
  unfold mulNum
  rw [dataOf_mul, dataOf_leaf_lt g c a ha, dataOf_leaf]

theorem neg_value (g : Graph) (a : Nat) (ha : a < g.length) :
    dataOf (neg g a).1 (neg g a).2 = dataOf g a * (-1) := by
  unfold neg
  rw [dataOf_mul, dataOf_leaf_lt g (-1) a ha, dataOf_leaf]

/-- C10 counterexample: `a - c` with a plain number `c` does not wrap `c`
as a leaf with that value — the source computes `self + (-other)`, so the
wrapped leaf holds `-c` — and the produced graph differs from
`sub` applied to the node and `leaf(c)`.  Here `a = leaf(5)`, `c = 3`:
the arena holds values `[5, -3, 2]` and no leaf carrying 3. -/
theorem c10_wrap_counterexample :
    (subNum graphX5 0 3).1 ≠ (sub (leaf graphX5 3).1 0 (leaf graphX5 3).2).1 ∧
    (subNum graphX5 0 3).1.map Node.data = [5, -3, 2] := by
  with_unfolding_all decide

/-- C10 amended: a plain number in a binary operation is wrapped as a
leaf.  For add and mul, in either order, the wrapped leaf holds the
number itself and the result is exactly the operation applied to the node
and `leaf(c)`; `a - c` instead wraps the negated number (it is
`add(a, leaf(-c))`) and `a / c` wraps the reciprocal (it is
`mul(a, leaf(1/c))`), while `c - a` and `c / a` wrap `c` itself behind a
negation, resp. pow node.  In every case the produced node's value is the
expected arithmetic result (for the two divisions, on a nonzero divisor). -/
theorem c10_number_wrapping (g : Graph) (a : Nat) (c : ℚ) (ha : a < g.length) :
    numAdd g c a = addNum g a c ∧
    numMul g c a = mulNum g a c ∧
    subNum g a c = addNum g a (-c) ∧
    divNum g a c = mulNum g a c⁻¹ ∧
    dataOf (addNum g a c).1 (addNum g a c).2 = dataOf g a + c ∧
    dataOf (mulNum g a c).1 (mulNum g a c).2 = dataOf g a * c ∧
    dataOf (subNum g a c).1 (subNum g a c).2 = dataOf g a - c ∧
    dataOf (numSub g c a).1 (numSub g c a).2 = c - dataOf g a ∧
    (c ≠ 0 → dataOf (divNum g a c).1 (divNum g a c).2 = dataOf g a / c) ∧
    (dataOf g a ≠ 0 → dataOf (numDiv g c a).1 (numDiv g c a).2 = c / dataOf g a) := by
  refine ⟨rfl, rfl, rfl, rfl, addNum_value g a c ha, mulNum_value g a c ha, ?_, ?_, ?_, ?_⟩
  · unfold subNum
    rw [addNum_value g a (-c) ha, sub_eq_add_neg]
  · unfold numSub
    rw [addNum_value _ _ c (neg_snd_lt g a), neg_value g a ha]
    ring
  · intro _
    unfold divNum
    rw [mulNum_value g a c⁻¹ ha, div_eq_mul_inv]
  · intro _
    unfold numDiv
    rw [mulNum_value _ _ c (pow_snd_lt g a (-1)), dataOf_pow, zpow_neg_one, inv_mul_eq_div]

/-- Witness for C10 amended at `g = [leaf(5)]`, `a = 0`, `c = 3`. -/
theorem c10_number_wrapping_witness :
    (0 < graphX5.length ∧ (3 : ℚ) ≠ 0 ∧ dataOf graphX5 0 ≠ 0) ∧
    dataOf (divNum graphX5 0 3).1 (divNum graphX5 0 3).2 = dataOf graphX5 0 / 3 ∧
    dataOf (numDiv graphX5 3 0).1 (numDiv graphX5 3 0).2 = 3 / dataOf graphX5 0 := by
  have h := c10_number_wrapping graphX5 0 3 (by with_unfolding_all decide)
  have hc : (3 : ℚ) ≠ 0 := by norm_num
  have ha : dataOf graphX5 0 ≠ 0 := by with_unfolding_all decide
  exact ⟨⟨by with_unfolding_all decide, hc, ha⟩,
    h.2.2.2.2.2.2.2.2.1 hc, h.2.2.2.2.2.2.2.2.2 ha⟩

end Micrograd
